import Mathlib

/-!
Verification of the Wave Function Collapse engine
(`src/wavefunction_alg/wfc_types.py`) against its design specification.

The Python source is an abstract interface: the only concrete code is
`WFCTile.__init__`.  The abstract operations (`collapase`, `propegate`,
`get_min_entropy_tile`, the solver loop) are modelled from the spec, as
indicated in each doc comment.
-/

namespace WFC

variable {T : Type} [DecidableEq T]

/-- Embedding of `WFCTile` (`wfc_types.py` lines 9-41): a tile holds an
optional `value`, a set `possible_values` and a set `neighbors`. -/
structure WFCTile (T : Type) where
  value : Option T
  possible_values : Finset T
  neighbors : Finset T
  deriving DecidableEq

/-- Embedding of `WFCTile.__init__` (`wfc_types.py` lines 23-32):
`self.value = value; self.possible_values = set(); self.neighbors = set()`. -/
def WFCTile.init (value : Option T) : WFCTile T :=
  { value := value, possible_values := ∅, neighbors := ∅ }

/-- Result of `narrow` per the spec: `Changed | Unchanged | Contradiction`. -/
inductive NarrowResult (T : Type) where
  | changed (tile : WFCTile T)
  | unchanged
  | contradiction
  deriving DecidableEq

/-- Modelled from the spec: `Cell.narrow(disallowed)` is declared in §4.1 but
has no body in `src/` (the class is abstract).  It removes `disallowed` from
`possible_values`; returns `Contradiction` if the result is empty, `Changed`
if the set shrank, `Unchanged` otherwise. -/
def WFCTile.narrow (tile : WFCTile T) (disallowed : Finset T) : NarrowResult T :=
  let newPV := tile.possible_values \ disallowed
  if newPV = ∅ then .contradiction
  else if newPV = tile.possible_values then .unchanged
  else .changed { tile with possible_values := newPV }

/-- Modelled from the spec: `WFCTile.collapase` is abstract in `src/`
(`wfc_types.py` lines 34-41).  Per spec §4.1: if already collapsed, return the
existing state unchanged; fail (return `None`) if `possible_values` is empty;
otherwise select one tile from `possible_values` via the choice policy and set
both `possible_values = {chosen}` and the collapsed value to the choice. -/
def WFCTile.collapase (tile : WFCTile T) (choose : Finset T → T) : Option (WFCTile T) :=
  match tile.value with
  | some _ => some tile
  | none =>
    if tile.possible_values = ∅ then none
    else
      let c := choose tile.possible_values
      some { tile with value := some c, possible_values := {c} }

/-- The cell invariant of spec §3: a present collapsed value forces the
possibility set to be the corresponding singleton. -/
def WFCTile.Invariant (tile : WFCTile T) : Prop :=
  ∀ v : T, tile.value = some v → tile.possible_values = {v}

instance (tile : WFCTile T) : Decidable tile.Invariant := by
  unfold WFCTile.Invariant
  exact match h : tile.value with
  | none => .isTrue (by simp [h])
  | some v =>
    if hp : tile.possible_values = {v} then
      .isTrue (by simp [h, hp])
    else
      .isFalse (by simp [h, hp])

/-- The four grid directions used by propagation (spec §3: the neighbor
relation covers 4 directions with bounds checks). -/
inductive Dir where
  | up
  | down
  | left
  | right
  deriving DecidableEq

/-- All four directions, in the order propagation examines them. -/
def Dir.all : List Dir := [.up, .down, .left, .right]

/-- Embedding of the `Wavefunction` grid (`wfc_types.py` lines 44-58): a 2D
collection of `WFCTile`s with a fixed width and height; `cells` is indexed by
`(column, row)`. -/
structure Grid (T : Type) where
  width : Nat
  height : Nat
  cells : Nat × Nat → WFCTile T

/-- The set of valid positions of a `width × height` grid. -/
def positions (w h : Nat) : Finset (Nat × Nat) :=
  Finset.range w ×ˢ Finset.range h

/-- The list of valid positions, in scan order. -/
def positionsList (w h : Nat) : List (Nat × Nat) :=
  (List.range w).flatMap fun x => (List.range h).map fun y => (x, y)

theorem mem_positions {w h : Nat} {p : Nat × Nat} :
    p ∈ positions w h ↔ p.1 < w ∧ p.2 < h := by
  simp [positions, Finset.mem_product]

theorem mem_positionsList {w h : Nat} {p : Nat × Nat} :
    p ∈ positionsList w h ↔ p.1 < w ∧ p.2 < h := by
  cases p with
  | mk x y =>
    simp [positionsList, List.mem_flatMap, List.mem_map, List.mem_range]

/-- Bounds-checked neighbor lookup (spec §3: for each cell and direction, the
adjacent cell if within bounds). -/
def neighbor (w h : Nat) (p : Nat × Nat) (d : Dir) : Option (Nat × Nat) :=
  match d with
  | .up => if p.2 + 1 < h then some (p.1, p.2 + 1) else none
  | .down => if p.2 = 0 then none else some (p.1, p.2 - 1)
  | .left => if p.1 = 0 then none else some (p.1 - 1, p.2)
  | .right => if p.1 + 1 < w then some (p.1 + 1, p.2) else none

theorem neighbor_mem_positions {w h : Nat} {p np : Nat × Nat} {d : Dir}
    (hp : p ∈ positions w h) (hn : neighbor w h p d = some np) :
    np ∈ positions w h := by
  rw [mem_positions] at hp ⊢
  obtain ⟨hp1, hp2⟩ := hp
  cases d <;> simp only [neighbor] at hn <;> split at hn <;>
    simp only [Option.some.injEq, reduceCtorEq] at hn <;> subst hn <;>
    constructor <;> simp <;> omega

/-- Replace the cell at one position, leaving the grid dimensions unchanged. -/
def Grid.update (g : Grid T) (p : Nat × Nat) (t : WFCTile T) : Grid T :=
  { g with cells := Function.update g.cells p t }

/-- Modelled from the spec: concrete grid construction is absent from `src/`
(`Wavefunction` is an abstract interface with no constructor body).  Per spec
§3 Lifecycle, the grid and all cells are created at solve start with every
cell's `possible_values` initialized to the full tile universe. -/
def Grid.create (w h : Nat) (univ : Finset T) : Grid T :=
  { width := w, height := h,
    cells := fun _ => { WFCTile.init none with possible_values := univ } }

end WFC

namespace WFC

variable {T : Type} [DecidableEq T]

omit [DecidableEq T] in
/-- C3: at solve start, every cell of the newly created grid has its
`possible_values` equal to the full tile universe supplied at construction. -/
theorem create_initializes_to_universe (w h : Nat) (univ : Finset T)
    (p : Nat × Nat) :
    ((Grid.create w h univ).cells p).possible_values = univ := rfl

/-- Modelled from the spec: `Wavefunction.get_min_entropy_tile` is abstract in
`src/` (`wfc_types.py` lines 73-80).  Per spec §4.2 and §4.1 it scans all
non-collapsed cells (a cell with exactly one possible value is excluded once
collapsed) and returns one with the lowest number of options. -/
def Grid.get_min_entropy_tile (g : Grid T) : Option (Nat × Nat) :=
  ((positionsList g.width g.height).filter
      (fun p => (g.cells p).possible_values.card != 1)).argmin
    (fun p => (g.cells p).possible_values.card)

omit [DecidableEq T] in
/-- C7: whenever some valid cell is non-collapsed, `get_min_entropy_tile`
returns a valid non-collapsed cell whose entropy (number of remaining
options) is at most that of every other non-collapsed cell; collapsed cells
(exactly one possible value) are never returned. -/
theorem get_min_entropy_tile_is_min (g : Grid T)
    (hex : ∃ p ∈ positions g.width g.height, (g.cells p).possible_values.card ≠ 1) :
    ∃ p₀, g.get_min_entropy_tile = some p₀ ∧
      p₀ ∈ positions g.width g.height ∧
      (g.cells p₀).possible_values.card ≠ 1 ∧
      ∀ q ∈ positions g.width g.height, (g.cells q).possible_values.card ≠ 1 →
        (g.cells p₀).possible_values.card ≤ (g.cells q).possible_values.card := by
  obtain ⟨p, hp, hpc⟩ := hex
  set l := (positionsList g.width g.height).filter
      (fun p => (g.cells p).possible_values.card != 1) with hl
  have hpl : p ∈ l := by
    rw [hl, List.mem_filter]
    refine ⟨mem_positionsList.mpr (mem_positions.mp hp), ?_⟩
    simpa using hpc
  have hne : l ≠ [] := fun h => by rw [h] at hpl; exact List.not_mem_nil p hpl
  cases hmin : g.get_min_entropy_tile with
  | none =>
    exfalso
    unfold Grid.get_min_entropy_tile at hmin
    rw [← hl, List.argmin_eq_none] at hmin
    exact hne hmin
  | some p₀ =>
    have hmem : p₀ ∈ (l.argmin fun p => (g.cells p).possible_values.card) := by
      unfold Grid.get_min_entropy_tile at hmin
      rw [← hl] at hmin
      rw [hmin]
      exact Option.mem_some_iff.mpr rfl
    have hp₀l : p₀ ∈ l := List.argmin_mem hmem
    rw [hl, List.mem_filter] at hp₀l
    refine ⟨p₀, rfl, ?_, ?_, ?_⟩
    · exact mem_positions.mpr (mem_positionsList.mp hp₀l.1)
    · simpa using hp₀l.2
    · intro q hq hqc
      have hql : q ∈ l := by
        rw [hl, List.mem_filter]
        refine ⟨mem_positionsList.mpr (mem_positions.mp hq), ?_⟩
        simpa using hqc
      exact List.le_of_mem_argmin (f := fun p => (g.cells p).possible_values.card) hql hmem

/-- Witness for C7 on a concrete 2×1 grid where cell (0,0) has two options
and cell (1,0) has one. -/
theorem get_min_entropy_tile_is_min_witness :
    ∃ p₀, (Grid.mk 2 1 (fun p => if p = (0, 0) then WFCTile.mk none ({4, 7} : Finset ℕ) ∅
        else WFCTile.mk (some 4) {4} ∅)).get_min_entropy_tile = some p₀ ∧
      p₀ ∈ positions 2 1 ∧
      ((if p₀ = (0, 0) then WFCTile.mk none ({4, 7} : Finset ℕ) ∅
        else WFCTile.mk (some 4) {4} ∅)).possible_values.card ≠ 1 ∧
      ∀ q ∈ positions 2 1,
        ((if q = (0, 0) then WFCTile.mk none ({4, 7} : Finset ℕ) ∅
          else WFCTile.mk (some 4) {4} ∅)).possible_values.card ≠ 1 →
        ((if p₀ = (0, 0) then WFCTile.mk none ({4, 7} : Finset ℕ) ∅
          else WFCTile.mk (some 4) {4} ∅)).possible_values.card ≤
        ((if q = (0, 0) then WFCTile.mk none ({4, 7} : Finset ℕ) ∅
          else WFCTile.mk (some 4) {4} ∅)).possible_values.card :=
  get_min_entropy_tile_is_min
    (Grid.mk 2 1 (fun p => if p = (0, 0) then WFCTile.mk none ({4, 7} : Finset ℕ) ∅
      else WFCTile.mk (some 4) {4} ∅))
    ⟨(0, 0), by decide, by decide⟩

end WFC

namespace WFC

variable {T : Type} [DecidableEq T]

omit [DecidableEq T] in
/-- C10: A freshly constructed `WFCTile` stores the given value argument and
has both `possible_values` and `neighbors` equal to the empty set, regardless
of the supplied value. -/
theorem init_stores_value_and_empty_sets (v : Option T) :
    (WFCTile.init v).value = v ∧
    (WFCTile.init v).possible_values = ∅ ∧
    (WFCTile.init v).neighbors = ∅ := by
  refine ⟨rfl, rfl, rfl⟩

/-- C5: collapse is idempotent on an already-collapsed cell: it returns the
existing state unchanged, and calling it twice yields the same value (and
state) both times. -/
theorem collapase_idempotent (tile : WFCTile T) (choose : Finset T → T)
    (v : T) (h : tile.value = some v) :
    tile.collapase choose = some tile ∧
    (tile.collapase choose).bind (fun t => t.collapase choose) = some tile := by
  have h1 : tile.collapase choose = some tile := by
    unfold WFCTile.collapase
    rw [h]
  refine ⟨h1, ?_⟩
  rw [h1]
  show tile.collapase choose = some tile
  exact h1

/-- Witness for C5 at a concrete collapsed tile. -/
theorem collapase_idempotent_witness :
    (WFCTile.mk (some 3) {3} ∅ : WFCTile ℕ).collapase (fun _ => 0) =
      some (WFCTile.mk (some 3) {3} ∅) ∧
    ((WFCTile.mk (some 3) {3} ∅ : WFCTile ℕ).collapase (fun _ => 0)).bind
      (fun t => t.collapase (fun _ => 0)) = some (WFCTile.mk (some 3) {3} ∅) :=
  collapase_idempotent (WFCTile.mk (some 3) {3} ∅) (fun _ => 0) 3 rfl

/-- C6: for a cell satisfying the spec invariant and a choice policy that
draws from the given set, collapse fails exactly when `possible_values` is
empty; on a non-empty set it succeeds and commits the cell to one tile drawn
from `possible_values`. -/
theorem collapase_fails_iff_empty (tile : WFCTile T) (choose : Finset T → T)
    (hinv : tile.Invariant)
    (hch : tile.possible_values.Nonempty → choose tile.possible_values ∈ tile.possible_values) :
    (tile.collapase choose = none ↔ tile.possible_values = ∅) ∧
    (tile.possible_values.Nonempty →
      ∃ c ∈ tile.possible_values, ∃ t' : WFCTile T,
        tile.collapase choose = some t' ∧ t'.value = some c ∧
        t'.possible_values = {c}) := by
  constructor
  · constructor
    · intro hnone
      unfold WFCTile.collapase at hnone
      cases hv : tile.value with
      | some v => rw [hv] at hnone; exact absurd hnone (by simp)
      | none =>
        rw [hv] at hnone
        by_contra hne
        simp only [if_neg hne] at hnone
        exact absurd hnone (by simp)
    · intro hempty
      unfold WFCTile.collapase
      cases hv : tile.value with
      | some v =>
        exfalso
        have := hinv v hv
        rw [this] at hempty
        exact Finset.singleton_ne_empty v hempty
      | none => simp [hempty]
  · intro hne
    cases hv : tile.value with
    | some v =>
      refine ⟨v, ?_, tile, ?_, hv, hinv v hv⟩
      · rw [hinv v hv]; exact Finset.mem_singleton_self v
      · unfold WFCTile.collapase; rw [hv]
    | none =>
      refine ⟨choose tile.possible_values, hch hne,
        { tile with value := some (choose tile.possible_values),
                    possible_values := {choose tile.possible_values} }, ?_, rfl, rfl⟩
      unfold WFCTile.collapase
      rw [hv, if_neg (Finset.nonempty_iff_ne_empty.mp hne)]

/-- Witness for C6 at a concrete non-collapsed tile with two options. -/
theorem collapase_fails_iff_empty_witness :
    ((WFCTile.mk none {1, 2} ∅ : WFCTile ℕ).collapase (fun s => if 1 ∈ s then 1 else 0) = none ↔
      (WFCTile.mk none {1, 2} ∅ : WFCTile ℕ).possible_values = ∅) ∧
    ((WFCTile.mk none {1, 2} ∅ : WFCTile ℕ).possible_values.Nonempty →
      ∃ c ∈ (WFCTile.mk none {1, 2} ∅ : WFCTile ℕ).possible_values, ∃ t' : WFCTile ℕ,
        (WFCTile.mk none {1, 2} ∅ : WFCTile ℕ).collapase (fun s => if 1 ∈ s then 1 else 0) =
          some t' ∧ t'.value = some c ∧ t'.possible_values = {c}) :=
  collapase_fails_iff_empty (WFCTile.mk none {1, 2} ∅) (fun s => if 1 ∈ s then 1 else 0)
    (by decide) (fun _ => by decide)

/-- C4 counterexample: the claim asserts the singleton invariant holds
immediately after construction with a given value, but `WFCTile.__init__`
always sets `possible_values = set()`: the tile built with value `0` has its
value present while `possible_values` is empty, not `{0}`. -/
theorem construction_breaks_singleton_invariant :
    (WFCTile.init (some 0) : WFCTile ℕ).value = some 0 ∧
    (WFCTile.init (some 0) : WFCTile ℕ).possible_values ≠ {0} := by
  refine ⟨rfl, ?_⟩
  decide

/-- C4 (amended): the singleton invariant is established by any successful
collapse of a non-collapsed cell (with a policy drawing from the set) and is
preserved by every successful `narrow`; it does not hold immediately after
construction with a given value. -/
theorem collapse_and_narrow_keep_singleton_invariant
    (tile : WFCTile T) (choose : Finset T → T) (dis : Finset T) :
    (tile.value = none → choose tile.possible_values ∈ tile.possible_values →
      ∀ t', tile.collapase choose = some t' → t'.Invariant) ∧
    (tile.Invariant → ∀ t', tile.narrow dis = .changed t' → t'.Invariant) := by
  constructor
  · intro hv hch t' hc
    unfold WFCTile.collapase at hc
    rw [hv] at hc
    by_cases hemp : tile.possible_values = ∅
    · rw [if_pos hemp] at hc; exact absurd hc (by simp)
    · rw [if_neg hemp] at hc
      injection hc with hc
      intro w hw
      rw [← hc] at hw ⊢
      simp only at hw ⊢
      injection hw with hw
      rw [hw]
  · intro hinv t' hn
    unfold WFCTile.narrow at hn
    by_cases hemp : tile.possible_values \ dis = ∅
    · simp only [if_pos hemp] at hn
      exact NarrowResult.noConfusion hn
    · by_cases heq : tile.possible_values \ dis = tile.possible_values
      · simp only [if_neg hemp, if_pos heq] at hn
        exact NarrowResult.noConfusion hn
      · simp only [if_neg hemp, if_neg heq] at hn
        injection hn with hn
        intro w hw
        rw [← hn] at hw
        simp only at hw
        exfalso
        have hpv := hinv w hw
        rw [hpv] at heq hemp
        by_cases hw2 : w ∈ dis
        · exact hemp (Finset.sdiff_eq_empty_iff_subset.mpr
            (Finset.singleton_subset_iff.mpr hw2))
        · refine heq (Finset.ext fun y => ?_)
          simp only [Finset.mem_sdiff, Finset.mem_singleton]
          exact ⟨fun h => h.1, fun h => ⟨h, h ▸ hw2⟩⟩

/-- Witness for the amended C4: a concrete collapse establishes the invariant
and a concrete narrow preserves it. -/
theorem collapse_and_narrow_keep_singleton_invariant_witness :
    ((WFCTile.mk none {1, 2} ∅ : WFCTile ℕ).value = none →
      (fun s : Finset ℕ => if 1 ∈ s then 1 else 0) (WFCTile.mk none {1, 2} ∅ : WFCTile ℕ).possible_values ∈
        (WFCTile.mk none {1, 2} ∅ : WFCTile ℕ).possible_values →
      ∀ t', (WFCTile.mk none {1, 2} ∅ : WFCTile ℕ).collapase
          (fun s => if 1 ∈ s then 1 else 0) = some t' → t'.Invariant) ∧
    ((WFCTile.mk none ({1, 2} : Finset ℕ) ∅).Invariant →
      ∀ t', (WFCTile.mk none ({1, 2} : Finset ℕ) ∅).narrow {2} = .changed t' → t'.Invariant) :=
  collapse_and_narrow_keep_singleton_invariant (WFCTile.mk none {1, 2} ∅)
    (fun s => if 1 ∈ s then 1 else 0) {2}

end WFC

namespace WFC

variable {T : Type} [DecidableEq T]

/-- Spec §4.3 step 1: the union, over the values still possible for the
source cell, of the neighbors the adjacency model allows in direction `d`. -/
def allowedNeighbors (adj : T → Dir → Finset T) (pv : Finset T) (d : Dir) : Finset T :=
  pv.biUnion fun v => adj v d

/-- The total number of remaining options over all valid cells; the measure
that every narrowing event strictly decreases. -/
def Grid.totalCard (g : Grid T) : Nat :=
  Finset.sum (positions g.width g.height) fun p => (g.cells p).possible_values.card

/-- Modelled from the spec: the inner loop of `propegate` (spec §4.3 steps
1-3), whose body is absent from `src/`.  For each direction, narrow the
in-bounds neighbor of `p` by the values no longer supported by `p`'s
possibility set; abort on `Contradiction`, record `Changed` neighbors for
re-enqueueing. -/
def processDirs (adj : T → Dir → Finset T) (p : Nat × Nat) :
    Grid T → List Dir → Option (Grid T × List (Nat × Nat))
  | g, [] => some (g, [])
  | g, d :: ds =>
    match neighbor g.width g.height p d with
    | none => processDirs adj p g ds
    | some np =>
      let nt := g.cells np
      let disallowed := nt.possible_values \
        allowedNeighbors adj (g.cells p).possible_values d
      if disallowed = ∅ then processDirs adj p g ds
      else
        match nt.narrow disallowed with
        | .contradiction => none
        | .unchanged => processDirs adj p g ds
        | .changed nt' =>
          match processDirs adj p (g.update np nt') ds with
          | none => none
          | some (g', pushed) => some (g', np :: pushed)

theorem narrow_changed {tile t' : WFCTile T} {dis : Finset T}
    (h : tile.narrow dis = .changed t') :
    t'.value = tile.value ∧
    t'.possible_values = tile.possible_values \ dis ∧
    t'.possible_values ≠ ∅ ∧ t'.possible_values ≠ tile.possible_values := by
  unfold WFCTile.narrow at h
  by_cases hemp : tile.possible_values \ dis = ∅
  · simp only [if_pos hemp] at h
    exact NarrowResult.noConfusion h
  · by_cases heq : tile.possible_values \ dis = tile.possible_values
    · simp only [if_neg hemp, if_pos heq] at h
      exact NarrowResult.noConfusion h
    · simp only [if_neg hemp, if_neg heq] at h
      injection h with h
      subst h
      exact ⟨rfl, rfl, hemp, heq⟩

omit [DecidableEq T] in
theorem update_cells (g : Grid T) (p : Nat × Nat) (t : WFCTile T) (q : Nat × Nat) :
    (g.update p t).cells q = if q = p then t else g.cells q := by
  unfold Grid.update
  exact Function.update_apply g.cells p t q

omit [DecidableEq T] in
theorem update_width (g : Grid T) (p : Nat × Nat) (t : WFCTile T) :
    (g.update p t).width = g.width := rfl

omit [DecidableEq T] in
theorem update_height (g : Grid T) (p : Nat × Nat) (t : WFCTile T) :
    (g.update p t).height = g.height := rfl

omit [DecidableEq T] in
theorem totalCard_update_lt (g : Grid T) {p : Nat × Nat}
    (hp : p ∈ positions g.width g.height) {t : WFCTile T}
    (hc : t.possible_values.card < (g.cells p).possible_values.card) :
    (g.update p t).totalCard < g.totalCard := by
  unfold Grid.totalCard
  rw [update_width, update_height]
  apply Finset.sum_lt_sum
  · intro i _
    rw [update_cells]
    split
    · next hip => subst hip; exact hc.le
    · exact le_refl _
  · refine ⟨p, hp, ?_⟩
    rw [update_cells, if_pos rfl]
    exact hc

theorem processDirs_dims (adj : T → Dir → Finset T) (p : Nat × Nat) :
    ∀ (ds : List Dir) (g g' : Grid T) (pushed : List (Nat × Nat)),
      processDirs adj p g ds = some (g', pushed) →
      g'.width = g.width ∧ g'.height = g.height := by
  intro ds
  induction ds with
  | nil =>
    intro g g' pushed hp
    simp only [processDirs, Option.some.injEq, Prod.mk.injEq] at hp
    rw [← hp.1]
    exact ⟨rfl, rfl⟩
  | cons d ds ih =>
    intro g g' pushed hp
    simp only [processDirs] at hp
    cases hn : neighbor g.width g.height p d with
    | none =>
      rw [hn] at hp
      exact ih g g' pushed hp
    | some np =>
      rw [hn] at hp
      simp only at hp
      split at hp
      · exact ih g g' pushed hp
      · split at hp
        · exact Option.noConfusion hp
        · exact ih g g' pushed hp
        · next nt' hnar =>
          split at hp
          · exact Option.noConfusion hp
          · next g1 pushed1 heq =>
            injection hp with hp
            injection hp with hp1 hp2
            subst hp1
            have := ih (g.update np nt') g1 pushed1 heq
            rw [update_width, update_height] at this
            exact this

end WFC

namespace WFC

variable {T : Type} [DecidableEq T]

theorem processDirs_mono (adj : T → Dir → Finset T) (p : Nat × Nat) :
    ∀ (ds : List Dir) (g g' : Grid T) (pushed : List (Nat × Nat)),
      processDirs adj p g ds = some (g', pushed) →
      ∀ q, (g'.cells q).possible_values ⊆ (g.cells q).possible_values := by
  intro ds
  induction ds with
  | nil =>
    intro g g' pushed hp q
    simp only [processDirs, Option.some.injEq, Prod.mk.injEq] at hp
    rw [← hp.1]
  | cons d ds ih =>
    intro g g' pushed hp q
    simp only [processDirs] at hp
    cases hn : neighbor g.width g.height p d with
    | none =>
      rw [hn] at hp
      exact ih g g' pushed hp q
    | some np =>
      rw [hn] at hp
      simp only at hp
      split at hp
      · exact ih g g' pushed hp q
      · split at hp
        · exact Option.noConfusion hp
        · exact ih g g' pushed hp q
        · next nt' hnar =>
          split at hp
          · exact Option.noConfusion hp
          · next g1 pushed1 heq =>
            injection hp with hp
            injection hp with hp1 hp2
            subst hp1
            refine subset_trans (ih (g.update np nt') g1 pushed1 heq q) ?_
            rw [update_cells]
            split
            · next hqnp =>
              subst hqnp
              rw [(narrow_changed hnar).2.1]
              exact Finset.sdiff_subset
            · exact subset_refl _

theorem processDirs_measure (adj : T → Dir → Finset T) (p : Nat × Nat) :
    ∀ (ds : List Dir) (g g' : Grid T) (pushed : List (Nat × Nat)),
      p ∈ positions g.width g.height →
      processDirs adj p g ds = some (g', pushed) →
      g'.totalCard + pushed.length ≤ g.totalCard := by
  intro ds
  induction ds with
  | nil =>
    intro g g' pushed _ hp
    simp only [processDirs, Option.some.injEq, Prod.mk.injEq] at hp
    rw [← hp.1, ← hp.2]
    simp
  | cons d ds ih =>
    intro g g' pushed hpos hp
    simp only [processDirs] at hp
    cases hn : neighbor g.width g.height p d with
    | none =>
      rw [hn] at hp
      exact ih g g' pushed hpos hp
    | some np =>
      rw [hn] at hp
      simp only at hp
      split at hp
      · exact ih g g' pushed hpos hp
      · split at hp
        · exact Option.noConfusion hp
        · exact ih g g' pushed hpos hp
        · next nt' hnar =>
          split at hp
          · exact Option.noConfusion hp
          · next g1 pushed1 heq =>
            injection hp with hp
            injection hp with hp1 hp2
            subst hp1
            subst hp2
            have hnpv : np ∈ positions g.width g.height :=
              neighbor_mem_positions hpos hn
            have hcard : nt'.possible_values.card <
                ((g.cells np)).possible_values.card := by
              obtain ⟨-, hpv, -, hne⟩ := narrow_changed hnar
              refine Finset.card_lt_card ?_
              rw [hpv]
              exact HasSubset.Subset.ssubset_of_ne Finset.sdiff_subset (hpv ▸ hne)
            have hlt : (g.update np nt').totalCard < g.totalCard :=
              totalCard_update_lt g hnpv hcard
            have hrec := ih (g.update np nt') g1 pushed1
              (by rw [update_width, update_height]; exact hpos) heq
            simp only [List.length_cons]
            omega

theorem processDirs_pushed_valid (adj : T → Dir → Finset T) (p : Nat × Nat) :
    ∀ (ds : List Dir) (g g' : Grid T) (pushed : List (Nat × Nat)),
      p ∈ positions g.width g.height →
      processDirs adj p g ds = some (g', pushed) →
      ∀ x ∈ pushed, x ∈ positions g.width g.height := by
  intro ds
  induction ds with
  | nil =>
    intro g g' pushed _ hp
    simp only [processDirs, Option.some.injEq, Prod.mk.injEq] at hp
    rw [← hp.2]
    intro x hx
    exact absurd hx (List.not_mem_nil x)
  | cons d ds ih =>
    intro g g' pushed hpos hp
    simp only [processDirs] at hp
    cases hn : neighbor g.width g.height p d with
    | none =>
      rw [hn] at hp
      exact ih g g' pushed hpos hp
    | some np =>
      rw [hn] at hp
      simp only at hp
      split at hp
      · exact ih g g' pushed hpos hp
      · split at hp
        · exact Option.noConfusion hp
        · exact ih g g' pushed hpos hp
        · next nt' hnar =>
          split at hp
          · exact Option.noConfusion hp
          · next g1 pushed1 heq =>
            injection hp with hp
            injection hp with hp1 hp2
            subst hp1
            subst hp2
            intro x hx
            cases hx with
            | head =>
              exact neighbor_mem_positions hpos hn
            | tail _ hx =>
              have := ih (g.update np nt') g1 pushed1
                (by rw [update_width, update_height]; exact hpos) heq x hx
              rw [update_width, update_height] at this
              exact this

theorem processDirs_nonempty (adj : T → Dir → Finset T) (p : Nat × Nat) :
    ∀ (ds : List Dir) (g g' : Grid T) (pushed : List (Nat × Nat)),
      (∀ q, (g.cells q).possible_values ≠ ∅ ∨ q ∉ positions g.width g.height) →
      processDirs adj p g ds = some (g', pushed) →
      ∀ q ∈ positions g'.width g'.height, (g'.cells q).possible_values ≠ ∅ := by
  intro ds
  induction ds with
  | nil =>
    intro g g' pushed hne hp q hq
    simp only [processDirs, Option.some.injEq, Prod.mk.injEq] at hp
    rw [← hp.1] at hq ⊢
    rcases hne q with h | h
    · exact h
    · exact absurd hq h
  | cons d ds ih =>
    intro g g' pushed hne hp q hq
    simp only [processDirs] at hp
    cases hn : neighbor g.width g.height p d with
    | none =>
      rw [hn] at hp
      exact ih g g' pushed hne hp q hq
    | some np =>
      rw [hn] at hp
      simp only at hp
      split at hp
      · exact ih g g' pushed hne hp q hq
      · split at hp
        · exact Option.noConfusion hp
        · exact ih g g' pushed hne hp q hq
        · next nt' hnar =>
          split at hp
          · exact Option.noConfusion hp
          · next g1 pushed1 heq =>
            injection hp with hp
            injection hp with hp1 hp2
            subst hp1
            refine ih (g.update np nt') g1 pushed1 ?_ heq q hq
            intro x
            rw [update_cells, update_width, update_height]
            split
            · exact Or.inl (narrow_changed hnar).2.2.1
            · exact hne x

end WFC

namespace WFC

variable {T : Type} [DecidableEq T]

/-- Result of one full propagation run: the fixed point, a contradiction, or
fuel exhaustion (shown impossible for sufficient fuel). -/
inductive PropResult (T : Type) where
  | ok (g : Grid T)
  | contradiction
  | outOfFuel

/-- Modelled from the spec: the worklist fixed-point loop of `propegate`
(spec §4.3), whose body is absent from `src/`.  Pops a cell, narrows its
in-bounds neighbors, aborts the whole run on `Contradiction`, re-enqueues
`Changed` neighbors, and stops when the worklist is empty. -/
def propagateAux (adj : T → Dir → Finset T) :
    Nat → Grid T → List (Nat × Nat) → PropResult T
  | _, g, [] => .ok g
  | 0, _, _ :: _ => .outOfFuel
  | fuel + 1, g, p :: rest =>
    match processDirs adj p g Dir.all with
    | none => .contradiction
    | some (g', pushed) => propagateAux adj fuel g' (rest ++ pushed)

/-- Modelled from the spec: `Wavefunction.propegate` is abstract in `src/`
(`wfc_types.py` lines 61-71).  It runs the worklist loop seeded with the
selected tile's position, with enough fuel for every possible narrowing
event, and returns the updated wavefunction, or `None` on contradiction. -/
def Grid.propegate (adj : T → Dir → Finset T) (g : Grid T)
    (selected : Nat × Nat) : Option (Grid T) :=
  match propagateAux adj (g.totalCard + 1) g [selected] with
  | .ok g' => some g'
  | _ => none

theorem propagateAux_mono (adj : T → Dir → Finset T) :
    ∀ (fuel : Nat) (g : Grid T) (queue : List (Nat × Nat)) (g' : Grid T),
      propagateAux adj fuel g queue = .ok g' →
      ∀ q, (g'.cells q).possible_values ⊆ (g.cells q).possible_values := by
  intro fuel
  induction fuel with
  | zero =>
    intro g queue g' hp q
    cases queue with
    | nil =>
      simp only [propagateAux, PropResult.ok.injEq] at hp
      rw [← hp]
    | cons p rest =>
      simp only [propagateAux] at hp
      exact PropResult.noConfusion hp
  | succ n ih =>
    intro g queue g' hp q
    cases queue with
    | nil =>
      simp only [propagateAux, PropResult.ok.injEq] at hp
      rw [← hp]
    | cons p rest =>
      simp only [propagateAux] at hp
      cases hpd : processDirs adj p g Dir.all with
      | none =>
        rw [hpd] at hp
        exact PropResult.noConfusion hp
      | some pr =>
        obtain ⟨g1, pushed⟩ := pr
        rw [hpd] at hp
        simp only at hp
        exact subset_trans (ih g1 (rest ++ pushed) g' hp q)
          (processDirs_mono adj p Dir.all g g1 pushed hpd q)

theorem propagateAux_dims (adj : T → Dir → Finset T) :
    ∀ (fuel : Nat) (g : Grid T) (queue : List (Nat × Nat)) (g' : Grid T),
      propagateAux adj fuel g queue = .ok g' →
      g'.width = g.width ∧ g'.height = g.height := by
  intro fuel
  induction fuel with
  | zero =>
    intro g queue g' hp
    cases queue with
    | nil =>
      simp only [propagateAux, PropResult.ok.injEq] at hp
      rw [← hp]
      exact ⟨rfl, rfl⟩
    | cons p rest =>
      simp only [propagateAux] at hp
      exact PropResult.noConfusion hp
  | succ n ih =>
    intro g queue g' hp
    cases queue with
    | nil =>
      simp only [propagateAux, PropResult.ok.injEq] at hp
      rw [← hp]
      exact ⟨rfl, rfl⟩
    | cons p rest =>
      simp only [propagateAux] at hp
      cases hpd : processDirs adj p g Dir.all with
      | none =>
        rw [hpd] at hp
        exact PropResult.noConfusion hp
      | some pr =>
        obtain ⟨g1, pushed⟩ := pr
        rw [hpd] at hp
        simp only at hp
        have h1 := ih g1 (rest ++ pushed) g' hp
        have h2 := processDirs_dims adj p Dir.all g g1 pushed hpd
        exact ⟨h1.1.trans h2.1, h1.2.trans h2.2⟩

theorem propagateAux_no_fuel_exhaustion (adj : T → Dir → Finset T) :
    ∀ (fuel : Nat) (g : Grid T) (queue : List (Nat × Nat)),
      (∀ x ∈ queue, x ∈ positions g.width g.height) →
      g.totalCard + queue.length ≤ fuel →
      propagateAux adj fuel g queue ≠ .outOfFuel := by
  intro fuel
  induction fuel with
  | zero =>
    intro g queue hq hfuel
    cases queue with
    | nil => simp [propagateAux]
    | cons p rest => simp only [List.length_cons] at hfuel; omega
  | succ n ih =>
    intro g queue hq hfuel
    cases queue with
    | nil => simp [propagateAux]
    | cons p rest =>
      simp only [propagateAux]
      cases hpd : processDirs adj p g Dir.all with
      | none => simp
      | some pr =>
        obtain ⟨g1, pushed⟩ := pr
        simp only
        have hpv : p ∈ positions g.width g.height := hq p (List.mem_cons_self p rest)
        have hdim := processDirs_dims adj p Dir.all g g1 pushed hpd
        refine ih g1 (rest ++ pushed) ?_ ?_
        · intro x hx
          rw [hdim.1, hdim.2]
          rcases List.mem_append.mp hx with hx | hx
          · exact hq x (List.mem_cons_of_mem p hx)
          · exact processDirs_pushed_valid adj p Dir.all g g1 pushed hpv hpd x hx
        · have hms := processDirs_measure adj p Dir.all g g1 pushed hpv hpd
          rw [List.length_append]
          simp only [List.length_cons] at hfuel
          omega

theorem propagateAux_nonempty (adj : T → Dir → Finset T) :
    ∀ (fuel : Nat) (g : Grid T) (queue : List (Nat × Nat)) (g' : Grid T),
      (∀ q ∈ positions g.width g.height, (g.cells q).possible_values ≠ ∅) →
      propagateAux adj fuel g queue = .ok g' →
      ∀ q ∈ positions g'.width g'.height, (g'.cells q).possible_values ≠ ∅ := by
  intro fuel
  induction fuel with
  | zero =>
    intro g queue g' hne hp
    cases queue with
    | nil =>
      simp only [propagateAux, PropResult.ok.injEq] at hp
      rw [← hp]
      exact hne
    | cons p rest =>
      simp only [propagateAux] at hp
      exact PropResult.noConfusion hp
  | succ n ih =>
    intro g queue g' hne hp
    cases queue with
    | nil =>
      simp only [propagateAux, PropResult.ok.injEq] at hp
      rw [← hp]
      exact hne
    | cons p rest =>
      simp only [propagateAux] at hp
      cases hpd : processDirs adj p g Dir.all with
      | none =>
        rw [hpd] at hp
        exact PropResult.noConfusion hp
      | some pr =>
        obtain ⟨g1, pushed⟩ := pr
        rw [hpd] at hp
        simp only at hp
        refine ih g1 (rest ++ pushed) g' ?_ hp
        exact processDirs_nonempty adj p Dir.all g g1 pushed
          (fun q => if h : q ∈ positions g.width g.height
            then Or.inl (hne q h) else Or.inr h) hpd

end WFC

namespace WFC

variable {T : Type} [DecidableEq T]

/-- A linear congruential step: the single caller-seeded random source that
drives every random draw (spec §5). -/
def lcg (n : Nat) : Nat := (1103515245 * n + 12345) % 2147483648

/-- Draw one tile from a set of options, driven by the random value `r`. -/
def chooseFrom (s : Finset Nat) (r : Nat) : Nat :=
  (s.sort (· ≤ ·)).getD (r % s.card) 0

/-- Embedding of `Wavefunction.is_collapsed` (`wfc_types.py` lines 94-101,
abstract): whether every valid cell has exactly one remaining option. -/
def Grid.is_collapsed (g : Grid T) : Bool :=
  (positionsList g.width g.height).all fun p =>
    (g.cells p).possible_values.card == 1

/-- Terminal result of one solve run over `Nat`-valued tiles. -/
inductive SolveRes where
  | collapsed (g : Grid Nat)
  | contradiction (p : Nat × Nat)
  | incomplete

/-- Modelled from the spec: the Solver orchestration loop (spec §4.4), absent
from `src/`.  While not fully collapsed: pick the minimum-entropy cell,
collapse it with the seeded choice policy, propagate; stop on contradiction.
Returns the sequence of collapses performed and the terminal result. -/
def solveLoop (adj : Nat → Dir → Finset Nat) :
    Nat → Grid Nat → Nat → List ((Nat × Nat) × Nat) →
      List ((Nat × Nat) × Nat) × SolveRes
  | 0, _, _, trace => (trace.reverse, .incomplete)
  | fuel + 1, g, seed, trace =>
    if g.is_collapsed then (trace.reverse, .collapsed g)
    else
      match g.get_min_entropy_tile with
      | none => (trace.reverse, .incomplete)
      | some p =>
        match (g.cells p).collapase (fun s => chooseFrom s (lcg seed)) with
        | none => (trace.reverse, .contradiction p)
        | some t' =>
          match (g.update p t').propegate adj p with
          | none => (((p, t'.value.getD 0) :: trace).reverse, .contradiction p)
          | some g2 => solveLoop adj fuel g2 (lcg seed) ((p, t'.value.getD 0) :: trace)

/-- Modelled from the spec: one full solve (spec §4.4 and §6): build the grid
from the construction inputs and run the collapse/propagate loop, all
randomness drawn from the supplied seed. -/
def solve (seed : Nat) (adj : Nat → Dir → Finset Nat) (w h : Nat)
    (univ : Finset Nat) : List ((Nat × Nat) × Nat) × SolveRes :=
  solveLoop adj (w * h * univ.card + 1) (Grid.create w h univ) seed []

/-- One solver-visible state mutation (spec §4.4): a collapse of one cell
(with a choice policy that draws from the cell's possibility set), or a
successful propagation run. -/
inductive SolveStep (adj : T → Dir → Finset T) : Grid T → Grid T → Prop where
  | collapse (g : Grid T) (p : Nat × Nat) (choose : Finset T → T) (t' : WFCTile T)
      (hch : choose (g.cells p).possible_values ∈ (g.cells p).possible_values)
      (hc : (g.cells p).collapase choose = some t') :
      SolveStep adj g (g.update p t')
  | propagateOk (g g' : Grid T) (fuel : Nat) (queue : List (Nat × Nat))
      (hp : propagateAux adj fuel g queue = .ok g') :
      SolveStep adj g g'

theorem collapase_subset {tile t' : WFCTile T} {choose : Finset T → T}
    (hch : choose tile.possible_values ∈ tile.possible_values)
    (hc : tile.collapase choose = some t') :
    t'.possible_values ⊆ tile.possible_values := by
  unfold WFCTile.collapase at hc
  cases hv : tile.value with
  | some v =>
    rw [hv] at hc
    injection hc with hc
    rw [← hc]
  | none =>
    rw [hv] at hc
    by_cases hemp : tile.possible_values = ∅
    · rw [if_pos hemp] at hc
      exact Option.noConfusion hc
    · rw [if_neg hemp] at hc
      injection hc with hc
      rw [← hc]
      exact Finset.singleton_subset_iff.mpr hch

theorem solveStep_mono {adj : T → Dir → Finset T} {g g' : Grid T}
    (h : SolveStep adj g g') (q : Nat × Nat) :
    (g'.cells q).possible_values ⊆ (g.cells q).possible_values := by
  cases h with
  | collapse p choose t' hch hc =>
    rw [update_cells]
    split
    · next hqp =>
      subst hqp
      exact collapase_subset hch hc
    · exact subset_refl _
  | propagateOk g2 fuel queue hp =>
    exact propagateAux_mono adj fuel g queue g' hp q

end WFC

namespace WFC

variable {T : Type} [DecidableEq T]

/-- C1: across any sequence of collapse and propagate operations within one
solve, every cell's possibility set only shrinks: the final set is a subset
of the initial one and its size never increases; no operation ever adds an
element back. -/
theorem possible_values_monotonic (adj : T → Dir → Finset T) (g g' : Grid T)
    (h : Relation.ReflTransGen (SolveStep adj) g g') (q : Nat × Nat) :
    (g'.cells q).possible_values ⊆ (g.cells q).possible_values ∧
    (g'.cells q).possible_values.card ≤ (g.cells q).possible_values.card := by
  induction h with
  | refl => exact ⟨subset_refl _, le_refl _⟩
  | tail _ hstep ih =>
    have hs := solveStep_mono hstep q
    exact ⟨subset_trans hs ih.1, le_trans (Finset.card_le_card hs) ih.2⟩

/-- Witness for C1: one concrete collapse step on a 1×1 grid with universe
`{0, 1}` shrinks the cell's set from `{0, 1}` to `{0}`. -/
theorem possible_values_monotonic_witness :
    (((Grid.create 1 1 ({0, 1} : Finset ℕ)).update (0, 0)
        (WFCTile.mk (some 0) {0} ∅)).cells (0, 0)).possible_values ⊆
      ((Grid.create 1 1 ({0, 1} : Finset ℕ)).cells (0, 0)).possible_values ∧
    (((Grid.create 1 1 ({0, 1} : Finset ℕ)).update (0, 0)
        (WFCTile.mk (some 0) {0} ∅)).cells (0, 0)).possible_values.card ≤
      ((Grid.create 1 1 ({0, 1} : Finset ℕ)).cells (0, 0)).possible_values.card :=
  possible_values_monotonic (fun _ _ => ({0, 1} : Finset ℕ))
    (Grid.create 1 1 ({0, 1} : Finset ℕ))
    ((Grid.create 1 1 ({0, 1} : Finset ℕ)).update (0, 0) (WFCTile.mk (some 0) {0} ∅))
    (Relation.ReflTransGen.single
      (SolveStep.collapse (Grid.create 1 1 ({0, 1} : Finset ℕ)) (0, 0)
        (fun s => if 0 ∈ s then 0 else 1) (WFCTile.mk (some 0) {0} ∅)
        (by decide) (by decide)))
    (0, 0)

/-- C8: propagation terminates: with fuel `width * height * |universe| +
|queue|` the worklist loop never exhausts its fuel, because every narrowing
strictly shrinks a finite possibility set bounded by the tile universe. -/
theorem propagation_terminates (adj : T → Dir → Finset T) (g : Grid T)
    (univ : Finset T) (queue : List (Nat × Nat))
    (hq : ∀ x ∈ queue, x ∈ positions g.width g.height)
    (hU : ∀ p ∈ positions g.width g.height, (g.cells p).possible_values ⊆ univ) :
    propagateAux adj (g.width * g.height * univ.card + queue.length) g queue ≠
      .outOfFuel := by
  have hbound : g.totalCard ≤ g.width * g.height * univ.card := by
    unfold Grid.totalCard
    calc Finset.sum (positions g.width g.height)
          (fun p => (g.cells p).possible_values.card)
        ≤ (positions g.width g.height).card • univ.card :=
          Finset.sum_le_card_nsmul _ _ _
            (fun p hp => Finset.card_le_card (hU p hp))
      _ = g.width * g.height * univ.card := by
          rw [smul_eq_mul, positions, Finset.card_product,
            Finset.card_range, Finset.card_range]
  exact propagateAux_no_fuel_exhaustion adj _ g queue hq (by omega)

/-- Witness for C8 on a concrete 2×2 grid with universe `{0, 1}` and the
worklist seeded at the origin. -/
theorem propagation_terminates_witness :
    propagateAux (fun _ _ => ({0, 1} : Finset ℕ))
        (2 * 2 * ({0, 1} : Finset ℕ).card + [((0 : ℕ), (0 : ℕ))].length)
        (Grid.create 2 2 ({0, 1} : Finset ℕ)) [(0, 0)] ≠ .outOfFuel :=
  propagation_terminates (fun _ _ => ({0, 1} : Finset ℕ))
    (Grid.create 2 2 ({0, 1} : Finset ℕ)) {0, 1} [(0, 0)]
    (by decide) (by decide)

end WFC

namespace WFC

/-- C2: propagation result contract.  Starting from a grid whose valid cells
all still have options: (i) when `propegate` returns an updated wavefunction,
every cell still has at least one valid option; (ii) `propegate` returns the
failure value `none` exactly when the worklist run reports `Contradiction`;
(iii) a narrowing reports `Contradiction` exactly when it would leave the
cell's possibility set empty; (iv) on a propagation failure the solver loop
stops at once with a `Contradiction` result instead of iterating further. -/
theorem propegate_contract (adj : Nat → Dir → Finset Nat) (g : Grid Nat)
    (p : Nat × Nat) (hp : p ∈ positions g.width g.height)
    (hne : ∀ q ∈ positions g.width g.height, (g.cells q).possible_values ≠ ∅) :
    (∀ g', g.propegate adj p = some g' →
      ∀ q ∈ positions g'.width g'.height, (g'.cells q).possible_values ≠ ∅) ∧
    (g.propegate adj p = none ↔
      propagateAux adj (g.totalCard + 1) g [p] = .contradiction) ∧
    (∀ (tile : WFCTile Nat) (dis : Finset Nat),
      tile.narrow dis = .contradiction ↔ tile.possible_values \ dis = ∅) ∧
    (∀ (fuel seed : Nat) (trace : List ((Nat × Nat) × Nat)) (t' : WFCTile Nat),
      g.is_collapsed = false →
      g.get_min_entropy_tile = some p →
      (g.cells p).collapase (fun s => chooseFrom s (lcg seed)) = some t' →
      (g.update p t').propegate adj p = none →
      solveLoop adj (fuel + 1) g seed trace =
        (((p, t'.value.getD 0) :: trace).reverse, .contradiction p)) := by
  have hqv : ∀ x ∈ [p], x ∈ positions g.width g.height := by
    intro x hx
    rw [List.mem_singleton] at hx
    subst hx
    exact hp
  have hnotfuel : propagateAux adj (g.totalCard + 1) g [p] ≠ .outOfFuel :=
    propagateAux_no_fuel_exhaustion adj (g.totalCard + 1) g [p] hqv (by simp)
  refine ⟨?_, ?_, ?_, ?_⟩
  · intro g' hsome q hq
    unfold Grid.propegate at hsome
    cases hres : propagateAux adj (g.totalCard + 1) g [p] with
    | ok g1 =>
      rw [hres] at hsome
      simp only [Option.some.injEq] at hsome
      subst hsome
      exact propagateAux_nonempty adj _ g [p] g1 hne hres q hq
    | contradiction =>
      rw [hres] at hsome
      exact Option.noConfusion hsome
    | outOfFuel => exact absurd hres hnotfuel
  · unfold Grid.propegate
    cases hres : propagateAux adj (g.totalCard + 1) g [p] with
    | ok g1 => simp
    | contradiction => simp
    | outOfFuel => exact absurd hres hnotfuel
  · intro tile dis
    unfold WFCTile.narrow
    constructor
    · intro h
      by_cases hemp : tile.possible_values \ dis = ∅
      · exact hemp
      · by_cases heq : tile.possible_values \ dis = tile.possible_values
        · simp only [if_neg hemp, if_pos heq] at h
          exact NarrowResult.noConfusion h
        · simp only [if_neg hemp, if_neg heq] at h
          exact NarrowResult.noConfusion h
    · intro h
      simp only [if_pos h]
  · intro fuel seed trace t' h1 h2 h3 h4
    simp only [solveLoop, h1, h2, h3, h4]
    simp

/-- Witness for C2 on a concrete 1×2 grid with universe `{0, 1}` and the
propagation origin at the top cell. -/
theorem propegate_contract_witness :
    (∀ g', (Grid.create 1 2 ({0, 1} : Finset Nat)).propegate
        (fun _ _ => ({0, 1} : Finset Nat)) (0, 0) = some g' →
      ∀ q ∈ positions g'.width g'.height, (g'.cells q).possible_values ≠ ∅) ∧
    ((Grid.create 1 2 ({0, 1} : Finset Nat)).propegate
        (fun _ _ => ({0, 1} : Finset Nat)) (0, 0) = none ↔
      propagateAux (fun _ _ => ({0, 1} : Finset Nat))
        ((Grid.create 1 2 ({0, 1} : Finset Nat)).totalCard + 1)
        (Grid.create 1 2 ({0, 1} : Finset Nat)) [(0, 0)] = .contradiction) ∧
    (∀ (tile : WFCTile Nat) (dis : Finset Nat),
      tile.narrow dis = .contradiction ↔ tile.possible_values \ dis = ∅) ∧
    (∀ (fuel seed : Nat) (trace : List ((Nat × Nat) × Nat)) (t' : WFCTile Nat),
      (Grid.create 1 2 ({0, 1} : Finset Nat)).is_collapsed = false →
      (Grid.create 1 2 ({0, 1} : Finset Nat)).get_min_entropy_tile = some (0, 0) →
      ((Grid.create 1 2 ({0, 1} : Finset Nat)).cells (0, 0)).collapase
        (fun s => chooseFrom s (lcg seed)) = some t' →
      ((Grid.create 1 2 ({0, 1} : Finset Nat)).update (0, 0) t').propegate
        (fun _ _ => ({0, 1} : Finset Nat)) (0, 0) = none →
      solveLoop (fun _ _ => ({0, 1} : Finset Nat)) (fuel + 1)
          (Grid.create 1 2 ({0, 1} : Finset Nat)) seed trace =
        ((((0, 0), t'.value.getD 0) :: trace).reverse, .contradiction (0, 0))) :=
  propegate_contract (fun _ _ => ({0, 1} : Finset Nat))
    (Grid.create 1 2 ({0, 1} : Finset Nat)) (0, 0) (by decide) (by decide)

/-- C9: determinism: the solver is a pure function of the seed, the adjacency
model and the grid size (with the tile universe), so two runs with equal
inputs produce the identical sequence of collapses and the identical final
result (final grid or contradiction point). -/
theorem solve_deterministic (s1 s2 : Nat) (adj1 adj2 : Nat → Dir → Finset Nat)
    (w1 w2 ht1 ht2 : Nat) (u1 u2 : Finset Nat)
    (hs : s1 = s2) (ha : adj1 = adj2) (hw : w1 = w2) (hh : ht1 = ht2)
    (hu : u1 = u2) :
    (solve s1 adj1 w1 ht1 u1).1 = (solve s2 adj2 w2 ht2 u2).1 ∧
    (solve s1 adj1 w1 ht1 u1).2 = (solve s2 adj2 w2 ht2 u2).2 := by
  subst hs
  subst ha
  subst hw
  subst hh
  subst hu
  exact ⟨rfl, rfl⟩

/-- Witness for C9 at a concrete seed, adjacency model and grid size. -/
theorem solve_deterministic_witness :
    (solve 42 (fun _ _ => ({0, 1} : Finset Nat)) 2 2 {0, 1}).1 =
      (solve 42 (fun _ _ => ({0, 1} : Finset Nat)) 2 2 {0, 1}).1 ∧
    (solve 42 (fun _ _ => ({0, 1} : Finset Nat)) 2 2 {0, 1}).2 =
      (solve 42 (fun _ _ => ({0, 1} : Finset Nat)) 2 2 {0, 1}).2 :=
  solve_deterministic 42 42 (fun _ _ => ({0, 1} : Finset Nat))
    (fun _ _ => ({0, 1} : Finset Nat)) 2 2 2 2 {0, 1} {0, 1}
    rfl rfl rfl rfl rfl

end WFC
